import Mathlib

/-!
Verification development for the semantic-search browser-extension repository
(faiss-wasm mock index, background indexing script, popup UI logic).

Strings of the JavaScript source are modelled as lists of characters,
JavaScript numbers as exact rationals (with real-valued results where the
source divides by square roots), and the stateful module closures as explicit
state records threaded through the functions.
-/

/-- JavaScript strings, modelled as lists of characters. -/
abbrev JSString := List Char

/-- Models JavaScript `String.prototype.startsWith`: the second list is a
prefix of the first. -/
def jsStarts : JSString → JSString → Bool
  | _, [] => true
  | [], _ :: _ => false
  | c :: s, d :: p => c == d && jsStarts s p

/-- Models JavaScript `String.prototype.includes`: `jsIncludes s pat` is true
when `pat` occurs contiguously inside `s`. -/
def jsIncludes : JSString → JSString → Bool
  | [], pat => jsStarts [] pat
  | c :: rest, pat => jsStarts (c :: rest) pat || jsIncludes rest pat

namespace Faiss

/-- Dot product of the faiss-wasm `cosineSimilarity` loop: sum of pairwise
products over the common indices. -/
def dotProduct (a b : List ℚ) : ℚ := (List.zipWith (fun x y => x * y) a b).sum

/-- The `normA` and `normB` accumulators of `cosineSimilarity`: sum of squares
of the components. -/
def normSq (a : List ℚ) : ℚ := (List.map (fun x => x * x) a).sum

/-- `cosineSimilarity` from faiss-wasm: returns 0 when either norm is zero,
otherwise the dot product divided by the product of the square roots of the
norms. Real-valued because the source divides by `Math.sqrt`. -/
noncomputable def cosineSimilarity (a b : List ℚ) : ℝ :=
  if normSq a = 0 ∨ normSq b = 0 then 0
  else (dotProduct a b : ℝ) / (Real.sqrt (normSq a) * Real.sqrt (normSq b))

/-- Decides `d1 / sqrt n1 <= d2 / sqrt n2` for positive `n1`, `n2` by sign
analysis and squaring, staying inside the rationals. Used to execute the
score comparison of `search` exactly. -/
def sqrtDivLE (d1 n1 d2 n2 : ℚ) : Bool :=
  if d1 < 0 then
    if d2 < 0 then decide (d2 * d2 * n1 ≤ d1 * d1 * n2) else true
  else
    if d2 < 0 then false else decide (d1 * d1 * n2 ≤ d2 * d2 * n1)

/-- Executable comparison of the `search` scores: `simLE q v1 v2` decides
`cosineSimilarity q v1 <= cosineSimilarity q v2`, following the zero-norm
cases of `cosineSimilarity` exactly. -/
def simLE (q v1 v2 : List ℚ) : Bool :=
  if normSq q = 0 then true
  else if normSq v1 = 0 then
    (if normSq v2 = 0 then true else decide (0 ≤ dotProduct q v2))
  else if normSq v2 = 0 then decide (dotProduct q v1 ≤ 0)
  else sqrtDivLE (dotProduct q v1) (normSq v1) (dotProduct q v2) (normSq v2)

/-- State of the faiss-wasm module closure: the `dimensions`, `vectors` and
`nextId` variables, plus the `ntotal` field of the index object.  `vectors`
is the JavaScript object keyed by integer ids; its entries are kept in
ascending key order, which is the enumeration order of integer-like keys.
`dimensions` and `nextId` are optional because `deserializeIndex` copies them
from the parsed blob without checking that they are present. -/
structure FaissState where
  dimensions : Option ℚ
  vectors : List (Nat × List ℚ)
  nextId : Option Nat
  ntotal : Nat
  deriving DecidableEq

/-- `faiss.createIndex(d)`: resets the closure state to the dimension `d`, an
empty vector store and a zero id counter.  The source performs no validation
of `d`. -/
def createIndex (d : ℚ) : FaissState :=
  { dimensions := some d, vectors := [], nextId := some 0, ntotal := 0 }

/-- Assignment `vectors[id] = v` on the integer-keyed JavaScript object:
inserts in ascending key order, overwriting an existing key. -/
def setVec (id : Nat) (v : List ℚ) : List (Nat × List ℚ) → List (Nat × List ℚ)
  | [] => [(id, v)]
  | (k, w) :: rest =>
    if id < k then (id, v) :: (k, w) :: rest
    else if id = k then (id, v) :: rest
    else (k, w) :: setVec id v rest

/-- `addWithIds(vecs, ids)` of the index object, in the form used by every
call site of the repository (explicit ids; the optional-ids branch that
draws from `nextId` is never exercised by the sources).  Stores each vector
under its id and increments `ntotal` once per vector. -/
def addWithIds (st : FaissState) (vecs : List (List ℚ)) (ids : List Nat) :
    FaissState × List Nat :=
  (List.zip ids vecs).foldl
    (fun acc p =>
      ({ acc.1 with
          vectors := setVec p.1 p.2 acc.1.vectors,
          ntotal := acc.1.ntotal + 1 },
        acc.2 ++ [p.1]))
    (st, [])

/-- Insertion step of a stable descending sort: `x` is placed before the first
element whose key is at most the key of `x` (`le y x`), so earlier elements
win ties.  Models the stable `Array.prototype.sort` of the source. -/
def insertByDesc (le : α → α → Bool) (x : α) : List α → List α
  | [] => [x]
  | y :: ys => if le y x then x :: y :: ys else y :: insertByDesc le x ys

/-- Stable descending sort by the comparison `le` (`le a b` meaning the key of
`a` is at most the key of `b`).  A stable sort is uniquely determined by a
consistent comparator, so this insertion sort models the engine sort used by
`scores.sort((a, b) => b.score - a.score)`. -/
def sortByDesc (le : α → α → Bool) (l : List α) : List α :=
  l.foldr (insertByDesc le) []

/-- `search(query, k)` of the index object: score every stored vector against
the query with `cosineSimilarity` (entries enumerate in ascending id order),
sort the scores descending with the engine's stable sort, keep the first `k`
and return their ids. -/
def search (st : FaissState) (query : List ℚ) (k : Nat) : List Nat :=
  ((sortByDesc (fun p r => simLE query p.2 r.2) st.vectors).take k).map
    (fun p => p.1)

/-- A persistence blob as `deserializeIndex` receives it: either a string that
`JSON.parse` rejects, or parsed JSON whose three expected fields may each be
absent. -/
inductive Blob where
  | malformed (raw : JSString)
  | parsed (dimensions : Option ℚ) (vectors : Option (List (Nat × List ℚ)))
      (nextId : Option Nat)
  deriving DecidableEq

/-- Errors thrown while deserializing: the `JSON.parse` syntax error on a
malformed string, or the type error raised by `Object.keys(vectors)` when the
`vectors` field is absent. -/
inductive DeserializeError where
  | syntaxError
  | typeError
  deriving DecidableEq

/-- `serialize()` of the index object: `JSON.stringify` of the object holding
`dimensions`, `vectors` and `nextId` (a field that is `undefined` is omitted
from the JSON). -/
def serialize (st : FaissState) : Blob :=
  Blob.parsed st.dimensions (some st.vectors) st.nextId

/-- `faiss.deserializeIndex(data)`: parsing a malformed string throws; the
parsed fields are copied into the closure without validation, except that
building the returned object evaluates `Object.keys(vectors)`, which throws
when the `vectors` field is missing.  A missing `dimensions` or `nextId`
field is accepted silently. -/
def deserializeIndex (b : Blob) : Except DeserializeError FaissState :=
  match b with
  | Blob.malformed _ => Except.error DeserializeError.syntaxError
  | Blob.parsed dims vecs nid =>
    match vecs with
    | none => Except.error DeserializeError.typeError
    | some v =>
      Except.ok { dimensions := dims, vectors := v, nextId := nid,
                  ntotal := v.length }

end Faiss

namespace Nomic

/-- Possible outcomes of the `fetch` to the embed endpoint, as observed by
`nomicEmbed.getEmbedding`. -/
inductive EmbedFetchOutcome where
  | fetchFailed
  | httpNotOk (status : Nat)
  | responded (embedding : List ℚ)
  deriving DecidableEq

/-- Errors surfaced by `getEmbedding`: the rejected fetch, or the error thrown
on a non-OK HTTP status.  Both are rethrown by the catch block. -/
inductive EmbedError where
  | fetchError
  | httpError (status : Nat)
  deriving DecidableEq

/-- `nomicEmbed.getEmbedding(text)`: throws on a rejected fetch or a non-OK
status (the catch block logs and rethrows), otherwise returns the embedding
from the response body. -/
def getEmbedding : EmbedFetchOutcome → Except EmbedError (List ℚ)
  | EmbedFetchOutcome.fetchFailed => Except.error EmbedError.fetchError
  | EmbedFetchOutcome.httpNotOk s => Except.error (EmbedError.httpError s)
  | EmbedFetchOutcome.responded e => Except.ok e

end Nomic

/-- A result item of the backend search response, as consumed by the
background `searchIndex` filter and the popup `performSearch` deduplication:
only the url and score fields drive those computations. -/
structure SearchResult where
  url : JSString
  title : Option JSString
  content : JSString
  score : ℚ
  deriving DecidableEq

namespace Background

/-- Hostname and pathname of a url that `new URL(url)` parses successfully. -/
structure URLParts where
  hostname : JSString
  pathname : JSString
  deriving DecidableEq

/-- A url as the background script sees it: the raw string together with the
outcome of `new URL(url)` (`none` when the constructor throws). -/
structure JSURL where
  raw : JSString
  parsed : Option URLParts
  deriving DecidableEq

/-- The object returned by `isConfidentialSite`. -/
structure ConfidentialCheck where
  isConfidential : Bool
  matchedPattern : Option JSString
  deriving DecidableEq

/-- The `matchedPattern` reported when the URL constructor throws. -/
def urlErrorPattern : JSString := "Error parsing URL".toList

/-- `isConfidentialSite(url)` of the background script: a parse failure is
reported as confidential; otherwise the first pattern of the list that occurs
as a substring of the hostname or of the pathname is reported, and a url
matching no pattern is not confidential. -/
def isConfidentialSite (patterns : List JSString) (url : JSURL) :
    ConfidentialCheck :=
  match url.parsed with
  | none => { isConfidential := true, matchedPattern := some urlErrorPattern }
  | some u =>
    match patterns.find?
        (fun site => jsIncludes u.hostname site || jsIncludes u.pathname site)
      with
    | some site => { isConfidential := true, matchedPattern := some site }
    | none => { isConfidential := false, matchedPattern := none }

/-- Outcome of the POST to the backend index endpoint, as observed by
`processPageContent`. -/
inductive IndexBackendOutcome where
  | fetchFailed (msg : JSString)
  | responded (success : Bool) (error : Option JSString)
  deriving DecidableEq

/-- Return value of `processPageContent`: the early `return` on a confidential
site (before any request is sent), the success object, or the caught-error
object. -/
inductive ProcessResult where
  | skippedConfidential
  | indexed
  | failed (msg : JSString)
  deriving DecidableEq

/-- The fallback message `'Unknown error'` of the background script. -/
def unknownError : JSString := "Unknown error".toList

/-- `processPageContent(url, title, content)`: returns before issuing the
indexing request when `isConfidentialSite(url).isConfidential`; otherwise the
request outcome determines the result (a false `success` or a rejected fetch
both end in the catch block). -/
def processPageContent (patterns : List JSString) (url : JSURL)
    (backend : IndexBackendOutcome) : ProcessResult :=
  if (isConfidentialSite patterns url).isConfidential then
    ProcessResult.skippedConfidential
  else
    match backend with
    | IndexBackendOutcome.fetchFailed msg => ProcessResult.failed msg
    | IndexBackendOutcome.responded true _ => ProcessResult.indexed
    | IndexBackendOutcome.responded false e =>
      ProcessResult.failed (e.getD unknownError)

/-- Outcome of the `check-indexed` request at the start of `indexPage`. -/
inductive CheckIndexedOutcome where
  | fetchFailed
  | httpNotOk (status : Nat)
  | responded (success : Bool) (isIndexed : Bool)
  deriving DecidableEq

/-- Outcome of `getPageContent(tab)`: a rejection, or the resolved page data. -/
inductive PageContentOutcome where
  | failed
  | got (title content : JSString)
  deriving DecidableEq

/-- Result of one `indexPage(tab)` run, naming the return point taken. -/
inductive IndexPageResult where
  | invalidTab
  | alreadyInProgress
  | checkFailed
  | skippedAlreadyIndexed
  | skippedConfidential (pattern : Option JSString)
  | contentError
  | completed (process : ProcessResult)
  deriving DecidableEq

/-- `indexPage(tab)` of the background script: bail out on a missing url or a
run already in progress; ask the backend whether the url is indexed (any
failure of that request returns with an error status, a positive answer
returns with a skipped status); then check confidentiality and return before
fetching the page content when the url is confidential; only then fetch the
page content (failures and empty content throw) and process it. -/
def indexPage (patterns : List JSString) (url : JSURL) (inProgress : Bool)
    (check : CheckIndexedOutcome) (page : PageContentOutcome)
    (backend : IndexBackendOutcome) : IndexPageResult :=
  if url.raw.isEmpty then IndexPageResult.invalidTab
  else if inProgress then IndexPageResult.alreadyInProgress
  else
    match check with
    | CheckIndexedOutcome.fetchFailed => IndexPageResult.checkFailed
    | CheckIndexedOutcome.httpNotOk _ => IndexPageResult.checkFailed
    | CheckIndexedOutcome.responded success isIndexed =>
      if success && isIndexed then IndexPageResult.skippedAlreadyIndexed
      else
        let cc := isConfidentialSite patterns url
        if cc.isConfidential then
          IndexPageResult.skippedConfidential cc.matchedPattern
        else
          match page with
          | PageContentOutcome.failed => IndexPageResult.contentError
          | PageContentOutcome.got _ content =>
            if content.isEmpty then IndexPageResult.contentError
            else IndexPageResult.completed
              (processPageContent patterns url backend)

/-- Outcome of the POST to the backend search endpoint, as observed by
`searchIndex`. -/
inductive SearchFetchOutcome where
  | fetchFailed
  | httpNotOk (status : Nat)
  | responded (success : Bool) (results : List SearchResult)
      (error : Option JSString)
  deriving DecidableEq

/-- The test-data url fragment filtered out by `searchIndex`. -/
def testUrlFragment : JSString := "example.com/test".toList

/-- One step of the `searchIndex` result filter: drop an item whose url was
already seen or contains the test-data fragment, otherwise keep it and mark
its url as seen. -/
def searchFilterStep (acc : List SearchResult × List JSString)
    (item : SearchResult) : List SearchResult × List JSString :=
  if acc.2.contains item.url || jsIncludes item.url testUrlFragment then acc
  else (acc.1 ++ [item], item.url :: acc.2)

/-- `searchIndex(query)` of the background script: every failure path (a
rejected fetch, a non-OK HTTP status, a false `success` flag) ends in the
catch block, which logs the error and returns the empty list; a successful
response is filtered for duplicate urls and test data. -/
def searchIndex (resp : SearchFetchOutcome) : List SearchResult :=
  match resp with
  | SearchFetchOutcome.fetchFailed => []
  | SearchFetchOutcome.httpNotOk _ => []
  | SearchFetchOutcome.responded success results _ =>
    if success then (results.foldl searchFilterStep ([], [])).1
    else []

/-- JavaScript `String.prototype.substring(a, b)`: both arguments are clamped
to the interval from 0 to the length, then swapped if needed, and the
characters strictly between the two bounds are returned. -/
def jsSubstring (l : JSString) (a b : ℤ) : JSString :=
  let n : ℤ := l.length
  let a' := min (max a 0) n
  let b' := min (max b 0) n
  (l.take (max a' b').toNat).drop (min a' b').toNat

/-- State of the `createTextChunks` while-loop: the chunks pushed so far and
the current position `i`. -/
structure ChunkState where
  chunks : List JSString
  i : ℤ
  deriving DecidableEq

/-- Outcome of one iteration of the `createTextChunks` loop: the loop exits
with the accumulated chunks (the while-condition fails, or a chunk shorter
than 50 characters breaks), or it continues with the successor state. -/
inductive ChunkStepResult where
  | done (chunks : List JSString)
  | next (st : ChunkState)
  deriving DecidableEq

/-- One iteration of the `createTextChunks` loop: while `i` is inside the
text, take the chunk from `i` to `i + chunkSize`, break when it is shorter
than 50 characters, otherwise push it and advance `i` by
`chunkSize - overlapSize`. -/
def chunkStep (text : JSString) (chunkSize overlapSize : ℤ)
    (st : ChunkState) : ChunkStepResult :=
  if st.i < (text.length : ℤ) then
    let chunk := jsSubstring text st.i (st.i + chunkSize)
    if chunk.length < 50 then ChunkStepResult.done st.chunks
    else ChunkStepResult.next
      { chunks := st.chunks ++ [chunk],
        i := st.i + (chunkSize - overlapSize) }
  else ChunkStepResult.done st.chunks

/-- Runs the `createTextChunks` loop for at most `fuel` iterations: `some`
with the accumulated chunks when the loop exits within the fuel, `none` when
it is still running (the source loop has no other bound, so returning `none`
at every fuel models divergence). -/
def chunkRun (text : JSString) (chunkSize overlapSize : ℤ) :
    Nat → ChunkState → Option (List JSString)
  | 0, _ => none
  | fuel + 1, st =>
    match chunkStep text chunkSize overlapSize st with
    | ChunkStepResult.done chunks => some chunks
    | ChunkStepResult.next st2 => chunkRun text chunkSize overlapSize fuel st2

/-- `createTextChunks(text, chunkSize, overlapSize)` run with the given fuel,
starting from an empty chunk list at position 0. -/
def createTextChunks (text : JSString) (chunkSize overlapSize : ℤ)
    (fuel : Nat) : Option (List JSString) :=
  chunkRun text chunkSize overlapSize fuel { chunks := [], i := 0 }

end Background

namespace Popup

/-- The in-place update `acc[acc.indexOf(existingResult)] = current` of
`performSearch`: `indexOf` of the element returned by `find` is the first
position whose url matches, so the first entry with the url of `cur` is
replaced by `cur`. -/
def replaceFirstUrl (cur : SearchResult) : List SearchResult →
    List SearchResult
  | [] => []
  | x :: xs =>
    if x.url == cur.url then cur :: xs else x :: replaceFirstUrl cur xs

/-- One step of the `performSearch` duplicate removal (`results.reduce`): a
url not seen yet is appended; a url already present is replaced in place when
the new occurrence has a strictly higher score. -/
def dedupStep (acc : List SearchResult) (cur : SearchResult) :
    List SearchResult :=
  match acc.find? (fun item => item.url == cur.url) with
  | none => acc ++ [cur]
  | some existing =>
    if existing.score < cur.score then replaceFirstUrl cur acc
    else acc

/-- The `reduce` pass of `performSearch` over the whole result list. -/
def dedupByUrl (results : List SearchResult) : List SearchResult :=
  results.foldl dedupStep []

/-- The result list displayed by `performSearch`: duplicates resolved by url,
then sorted by score in descending order with the engine's stable sort
(`(b.score || 0) - (a.score || 0)`; scores are numbers here, so the
`|| 0` fallback leaves them unchanged). -/
def performSearchResults (results : List SearchResult) : List SearchResult :=
  Faiss.sortByDesc (fun a b => decide (a.score ≤ b.score)) (dedupByUrl results)

/-- The protected category name. -/
def othersCat : JSString := "Others".toList

/-- The initial `availableCategories` list of the popup script. -/
def defaultCategories : List JSString :=
  ["Sports".toList, "Politics".toList, "Financial".toList,
   "Health & Medical".toList, "Current Affairs".toList,
   "Technology".toList, "Others".toList]

/-- `loadAvailableCategories()`: a successful fetch of a category array
replaces the list, appending `'Others'` when absent; every failure path (a
non-OK response, a false `success` flag, a non-array payload, or a thrown
error) leaves the current list unchanged. -/
def loadAvailableCategories (fetched : Option (List JSString))
    (current : List JSString) : List JSString :=
  match fetched with
  | some cats => if cats.contains othersCat then cats else cats ++ [othersCat]
  | none => current

/-- Models `String.prototype.toLowerCase` on the ASCII category names. -/
def jsToLower (s : JSString) : JSString := s.map Char.toLower

/-- The `updateCategoryList` guard that disables the remove button:
`category.toLowerCase() === 'others'`. -/
def removeButtonDisabledFor (category : JSString) : Bool :=
  jsToLower category == "others".toList

end Popup

namespace Registry

/-- Result of the category-removal operation on the backend registry. -/
inductive RemoveResult where
  | rejected (registry : List JSString)
  | removed (registry : List JSString)
  deriving DecidableEq

/-- Modelled from the spec: the backend category-removal endpoint is not in
the repository sources (only the popup caller is).  Per the spec, "Others" is
a protected sentinel that can never be removed: removing it is rejected and
the registry is unchanged; any other category is removed from the ordered
set. -/
def removeCategoryBackend (registry : List JSString) (c : JSString) :
    RemoveResult :=
  if c == Popup.othersCat then RemoveResult.rejected registry
  else RemoveResult.removed (registry.filter (fun x => !(x == c)))

end Registry

/-! ### Helper lemmas -/

lemma normSq_nonneg (a : List ℚ) : 0 ≤ Faiss.normSq a := by
  unfold Faiss.normSq
  apply List.sum_nonneg
  intro x hx
  obtain ⟨y, _, rfl⟩ := List.mem_map.mp hx
  exact mul_self_nonneg y

lemma normSq_pos_of_ne {a : List ℚ} (h : Faiss.normSq a ≠ 0) :
    0 < Faiss.normSq a :=
  lt_of_le_of_ne (normSq_nonneg a) (Ne.symm h)

lemma sqrt_normSq_pos {a : List ℚ} (h : Faiss.normSq a ≠ 0) :
    0 < Real.sqrt (Faiss.normSq a) :=
  Real.sqrt_pos.mpr (by exact_mod_cast normSq_pos_of_ne h)

lemma sqrtDivLE_iff (d1 n1 d2 n2 : ℚ) (h1 : 0 < n1) (h2 : 0 < n2) :
    Faiss.sqrtDivLE d1 n1 d2 n2 = true ↔
      (d1 : ℝ) / Real.sqrt (n1 : ℚ) ≤ (d2 : ℝ) / Real.sqrt (n2 : ℚ) := by
  have h1r : (0 : ℝ) < (n1 : ℚ) := by exact_mod_cast h1
  have h2r : (0 : ℝ) < (n2 : ℚ) := by exact_mod_cast h2
  have hs1 : 0 < Real.sqrt (n1 : ℚ) := Real.sqrt_pos.mpr h1r
  have hs2 : 0 < Real.sqrt (n2 : ℚ) := Real.sqrt_pos.mpr h2r
  have hsq1 : Real.sqrt (n1 : ℚ) * Real.sqrt (n1 : ℚ) = (n1 : ℚ) :=
    Real.mul_self_sqrt h1r.le
  have hsq2 : Real.sqrt (n2 : ℚ) * Real.sqrt (n2 : ℚ) = (n2 : ℚ) :=
    Real.mul_self_sqrt h2r.le
  unfold Faiss.sqrtDivLE
  by_cases hd1 : d1 < 0
  · have hd1r : (d1 : ℝ) < 0 := by exact_mod_cast hd1
    by_cases hd2 : d2 < 0
    · have hd2r : (d2 : ℝ) < 0 := by exact_mod_cast hd2
      rw [if_pos hd1, if_pos hd2, decide_eq_true_eq]
      have key : (d1 : ℝ) / Real.sqrt (n1 : ℚ) ≤ (d2 : ℝ) / Real.sqrt (n2 : ℚ) ↔
          (-((d2 : ℝ) / Real.sqrt (n2 : ℚ))) ≤ (-((d1 : ℝ) / Real.sqrt (n1 : ℚ))) :=
        (neg_le_neg_iff).symm
      rw [key]
      have ha : 0 ≤ -((d2 : ℝ) / Real.sqrt (n2 : ℚ)) := by
        have : (d2 : ℝ) / Real.sqrt (n2 : ℚ) < 0 := div_neg_of_neg_of_pos hd2r hs2
        linarith
      have hb : 0 ≤ -((d1 : ℝ) / Real.sqrt (n1 : ℚ)) := by
        have : (d1 : ℝ) / Real.sqrt (n1 : ℚ) < 0 := div_neg_of_neg_of_pos hd1r hs1
        linarith
      rw [mul_self_le_mul_self_iff ha hb]
      have e1 : -((d2 : ℝ) / Real.sqrt (n2 : ℚ)) * -((d2 : ℝ) / Real.sqrt (n2 : ℚ)) =
          ((d2 : ℝ) * (d2 : ℝ)) / ((n2 : ℚ) : ℝ) := by
        rw [neg_mul_neg, div_mul_div_comm, hsq2]
      have e2 : -((d1 : ℝ) / Real.sqrt (n1 : ℚ)) * -((d1 : ℝ) / Real.sqrt (n1 : ℚ)) =
          ((d1 : ℝ) * (d1 : ℝ)) / ((n1 : ℚ) : ℝ) := by
        rw [neg_mul_neg, div_mul_div_comm, hsq1]
      rw [e1, e2, div_le_div_iff₀ h2r h1r]
      constructor
      · intro h
        exact_mod_cast h
      · intro h
        exact_mod_cast h
    · have hd2r : (0 : ℝ) ≤ (d2 : ℝ) := by exact_mod_cast not_lt.mp hd2
      rw [if_pos hd1, if_neg hd2]
      simp only [true_iff]
      have ha : (d1 : ℝ) / Real.sqrt (n1 : ℚ) < 0 := div_neg_of_neg_of_pos hd1r hs1
      have hb : 0 ≤ (d2 : ℝ) / Real.sqrt (n2 : ℚ) := div_nonneg hd2r hs2.le
      linarith
  · have hd1r : (0 : ℝ) ≤ (d1 : ℝ) := by exact_mod_cast not_lt.mp hd1
    by_cases hd2 : d2 < 0
    · have hd2r : (d2 : ℝ) < 0 := by exact_mod_cast hd2
      rw [if_neg hd1, if_pos hd2]
      have ha : (d2 : ℝ) / Real.sqrt (n2 : ℚ) < 0 := div_neg_of_neg_of_pos hd2r hs2
      have hb : 0 ≤ (d1 : ℝ) / Real.sqrt (n1 : ℚ) := div_nonneg hd1r hs1.le
      exact iff_of_false (by simp) (not_le.mpr (lt_of_lt_of_le ha hb))
    · have hd2r : (0 : ℝ) ≤ (d2 : ℝ) := by exact_mod_cast not_lt.mp hd2
      rw [if_neg hd1, if_neg hd2, decide_eq_true_eq]
      have ha : 0 ≤ (d1 : ℝ) / Real.sqrt (n1 : ℚ) := div_nonneg hd1r hs1.le
      have hb : 0 ≤ (d2 : ℝ) / Real.sqrt (n2 : ℚ) := div_nonneg hd2r hs2.le
      have e1 : (d1 : ℝ) / Real.sqrt (n1 : ℚ) * ((d1 : ℝ) / Real.sqrt (n1 : ℚ)) =
          ((d1 : ℝ) * (d1 : ℝ)) / ((n1 : ℚ) : ℝ) := by
        rw [div_mul_div_comm, hsq1]
      have e2 : (d2 : ℝ) / Real.sqrt (n2 : ℚ) * ((d2 : ℝ) / Real.sqrt (n2 : ℚ)) =
          ((d2 : ℝ) * (d2 : ℝ)) / ((n2 : ℚ) : ℝ) := by
        rw [div_mul_div_comm, hsq2]
      rw [mul_self_le_mul_self_iff ha hb, e1, e2, div_le_div_iff₀ h1r h2r]
      constructor
      · intro h
        exact_mod_cast h
      · intro h
        exact_mod_cast h
lemma simLE_iff (q v1 v2 : List ℚ) :
    Faiss.simLE q v1 v2 = true ↔
      Faiss.cosineSimilarity q v1 ≤ Faiss.cosineSimilarity q v2 := by
  unfold Faiss.simLE Faiss.cosineSimilarity
  by_cases hq : Faiss.normSq q = 0
  · simp [hq]
  · by_cases h1 : Faiss.normSq v1 = 0
    · by_cases h2 : Faiss.normSq v2 = 0
      · simp [hq, h1, h2]
      · have hden : 0 < Real.sqrt (Faiss.normSq q : ℚ) *
            Real.sqrt (Faiss.normSq v2 : ℚ) :=
          mul_pos (sqrt_normSq_pos hq) (sqrt_normSq_pos h2)
        rw [if_neg hq, if_pos h1, if_neg h2, decide_eq_true_eq,
          if_pos (Or.inr h1), if_neg (show ¬(Faiss.normSq q = 0 ∨
            Faiss.normSq v2 = 0) from fun h => h.elim hq h2),
          le_div_iff₀ hden, zero_mul]
        exact ⟨fun h => by exact_mod_cast h, fun h => by exact_mod_cast h⟩
    · by_cases h2 : Faiss.normSq v2 = 0
      · have hden : 0 < Real.sqrt (Faiss.normSq q : ℚ) *
            Real.sqrt (Faiss.normSq v1 : ℚ) :=
          mul_pos (sqrt_normSq_pos hq) (sqrt_normSq_pos h1)
        rw [if_neg hq, if_neg h1, if_pos h2, decide_eq_true_eq,
          if_pos (Or.inr h2), if_neg (show ¬(Faiss.normSq q = 0 ∨
            Faiss.normSq v1 = 0) from fun h => h.elim hq h1),
          div_le_iff₀ hden, zero_mul]
        exact ⟨fun h => by exact_mod_cast h, fun h => by exact_mod_cast h⟩
      · rw [if_neg hq, if_neg h1, if_neg h2,
          if_neg (show ¬(Faiss.normSq q = 0 ∨ Faiss.normSq v1 = 0) from
            fun h => h.elim hq h1),
          if_neg (show ¬(Faiss.normSq q = 0 ∨ Faiss.normSq v2 = 0) from
            fun h => h.elim hq h2)]
        have e1 : (Faiss.dotProduct q v1 : ℝ) /
            (Real.sqrt (Faiss.normSq q : ℚ) * Real.sqrt (Faiss.normSq v1 : ℚ)) =
            (Faiss.dotProduct q v1 : ℝ) / Real.sqrt (Faiss.normSq v1 : ℚ) /
              Real.sqrt (Faiss.normSq q : ℚ) :=
          div_mul_eq_div_div_swap _ _ _
        have e2 : (Faiss.dotProduct q v2 : ℝ) /
            (Real.sqrt (Faiss.normSq q : ℚ) * Real.sqrt (Faiss.normSq v2 : ℚ)) =
            (Faiss.dotProduct q v2 : ℝ) / Real.sqrt (Faiss.normSq v2 : ℚ) /
              Real.sqrt (Faiss.normSq q : ℚ) :=
          div_mul_eq_div_div_swap _ _ _
        rw [e1, e2, div_le_div_iff_of_pos_right (sqrt_normSq_pos hq)]
        exact sqrtDivLE_iff _ _ _ _ (normSq_pos_of_ne h1) (normSq_pos_of_ne h2)

lemma mem_insertByDesc {α : Type _} (le : α → α → Bool) (x : α) (l : List α)
    (y : α) : y ∈ Faiss.insertByDesc le x l ↔ y = x ∨ y ∈ l := by
  induction l with
  | nil => simp [Faiss.insertByDesc]
  | cons z zs ih =>
    unfold Faiss.insertByDesc
    by_cases h : le z x
    · simp only [if_pos h, List.mem_cons]
    · simp only [if_neg h, List.mem_cons, ih]
      tauto

lemma insertByDesc_perm {α : Type _} (le : α → α → Bool) (x : α) (l : List α) :
    (Faiss.insertByDesc le x l).Perm (x :: l) := by
  induction l with
  | nil => exact List.Perm.refl _
  | cons z zs ih =>
    unfold Faiss.insertByDesc
    by_cases h : le z x
    · rw [if_pos h]
    · rw [if_neg h]
      exact (ih.cons z).trans (List.Perm.swap x z zs)

lemma sortByDesc_perm {α : Type _} (le : α → α → Bool) (l : List α) :
    (Faiss.sortByDesc le l).Perm l := by
  induction l with
  | nil => exact List.Perm.refl _
  | cons x xs ih =>
    exact (insertByDesc_perm le x (Faiss.sortByDesc le xs)).trans (ih.cons x)

lemma insertByDesc_pairwise {α β : Type _} [LinearOrder β] (le : α → α → Bool)
    (key : α → β) (hkey : ∀ a b, le a b = true ↔ key a ≤ key b)
    (S : α → α → Prop) (x : α) (l : List α)
    (hl : l.Pairwise (fun a b => key b < key a ∨ (key a = key b ∧ S a b)))
    (hx : ∀ y ∈ l, S x y) :
    (Faiss.insertByDesc le x l).Pairwise
      (fun a b => key b < key a ∨ (key a = key b ∧ S a b)) := by
  induction l with
  | nil => simp [Faiss.insertByDesc]
  | cons y ys ih =>
    rw [List.pairwise_cons] at hl
    obtain ⟨hy, hys⟩ := hl
    unfold Faiss.insertByDesc
    by_cases h : le y x
    · rw [if_pos h, List.pairwise_cons]
      have hyx : key y ≤ key x := (hkey y x).mp h
      refine ⟨?_, List.pairwise_cons.mpr ⟨hy, hys⟩⟩
      intro z hz
      rcases List.mem_cons.mp hz with rfl | hz2
      · rcases lt_or_eq_of_le hyx with hlt | heq
        · exact Or.inl hlt
        · exact Or.inr ⟨heq.symm, hx z (List.mem_cons_self z ys)⟩
      · rcases hy z hz2 with hlt | ⟨heq, _⟩
        · exact Or.inl (lt_of_lt_of_le hlt hyx)
        · have hzx : key z ≤ key x := by rw [← heq]; exact hyx
          rcases lt_or_eq_of_le hzx with h4 | h4
          · exact Or.inl h4
          · exact Or.inr ⟨h4.symm, hx z (List.mem_cons_of_mem y hz2)⟩
    · rw [if_neg h, List.pairwise_cons]
      have hxy : key x < key y := by
        have hnot : ¬ key y ≤ key x := fun hc => h ((hkey y x).mpr hc)
        exact not_le.mp hnot
      refine ⟨?_, ih hys (fun z hz => hx z (List.mem_cons_of_mem y hz))⟩
      intro z hz
      rcases (mem_insertByDesc le x ys z).mp hz with rfl | hz2
      · exact Or.inl hxy
      · exact hy z hz2

lemma sortByDesc_pairwise {α β : Type _} [LinearOrder β] (le : α → α → Bool)
    (key : α → β) (hkey : ∀ a b, le a b = true ↔ key a ≤ key b)
    (S : α → α → Prop) (l : List α) (hl : l.Pairwise S) :
    (Faiss.sortByDesc le l).Pairwise
      (fun a b => key b < key a ∨ (key a = key b ∧ S a b)) := by
  induction l with
  | nil => simp [Faiss.sortByDesc]
  | cons x xs ih =>
    rw [List.pairwise_cons] at hl
    exact insertByDesc_pairwise le key hkey S x (Faiss.sortByDesc le xs)
      (ih hl.2)
      (fun y hy => hl.1 y ((sortByDesc_perm le xs).mem_iff.mp hy))

lemma jsStarts_iff (s pat : JSString) :
    jsStarts s pat = true ↔ ∃ rest, s = pat ++ rest := by
  induction pat generalizing s with
  | nil =>
    cases s with
    | nil => simp [jsStarts]
    | cons c s2 => simp [jsStarts]
  | cons d p ih =>
    cases s with
    | nil => simp [jsStarts]
    | cons c s2 =>
      simp only [jsStarts, Bool.and_eq_true, beq_iff_eq, ih, List.cons_append,
        List.cons.injEq]
      constructor
      · rintro ⟨rfl, rest, rfl⟩
        exact ⟨rest, rfl, rfl⟩
      · rintro ⟨rest, rfl, rfl⟩
        exact ⟨rfl, rest, rfl⟩

lemma jsIncludes_iff (s pat : JSString) :
    jsIncludes s pat = true ↔ ∃ pre post, s = pre ++ pat ++ post := by
  induction s with
  | nil =>
    simp only [jsIncludes, jsStarts_iff]
    constructor
    · rintro ⟨rest, h⟩
      rcases List.append_eq_nil.mp h.symm with ⟨rfl, rfl⟩
      exact ⟨[], [], rfl⟩
    · rintro ⟨pre, post, h⟩
      rcases List.append_eq_nil.mp h.symm with ⟨h2, rfl⟩
      rcases List.append_eq_nil.mp h2 with ⟨rfl, rfl⟩
      exact ⟨[], rfl⟩
  | cons c s2 ih =>
    simp only [jsIncludes, Bool.or_eq_true, jsStarts_iff, ih]
    constructor
    · rintro (⟨rest, h⟩ | ⟨pre, post, h⟩)
      · exact ⟨[], rest, by simp [h]⟩
      · exact ⟨c :: pre, post, by simp [h]⟩
    · rintro ⟨pre, post, h⟩
      cases pre with
      | nil =>
        left
        exact ⟨post, by simpa using h⟩
      | cons c2 pre2 =>
        right
        have h2 : c = c2 ∧ s2 = pre2 ++ pat ++ post := by
          simpa using h
        exact ⟨pre2, post, h2.2⟩

lemma find?_isSome_of_mem {α : Type _} {p : α → Bool} {l : List α} {a : α}
    (ha : a ∈ l) (hpa : p a = true) : ∃ b, l.find? p = some b := by
  induction l with
  | nil => cases ha
  | cons x xs ih =>
    by_cases hx : p x
    · exact ⟨x, by simp [List.find?, hx]⟩
    · rcases List.mem_cons.mp ha with rfl | ha2
      · exact absurd hpa hx
      · obtain ⟨b, hb⟩ := ih ha2
        exact ⟨b, by simp [List.find?, hx, hb]⟩

lemma pairwise_trivial {α : Type _} (l : List α) :
    l.Pairwise (fun _ _ => True) := by
  induction l with
  | nil => exact List.Pairwise.nil
  | cons x xs ih => exact List.pairwise_cons.mpr ⟨fun _ _ => trivial, ih⟩

/-! ### Claim theorems -/

/-- C2: for every index state (dimension, stored id-to-vector pairs, next-id
counter) and every query vector and every k, deserializing the serialized
index succeeds, restores the dimension, vectors and next-id counter exactly
(only the ntotal field is recomputed from the vector count), and the
restored index's search returns exactly the same sequence of ids, in the
same order, as the original index. -/
theorem deserialize_serialize_search_roundtrip (st : Faiss.FaissState)
    (q : List ℚ) (k : Nat) :
    Faiss.deserializeIndex (Faiss.serialize st) =
      Except.ok { st with ntotal := st.vectors.length } ∧
    Faiss.search { st with ntotal := st.vectors.length } q k =
      Faiss.search st q k :=
  ⟨rfl, rfl⟩

/-- C4 counterexample: a search request whose upstream call fails (a rejected
fetch, or a non-OK HTTP status) makes `searchIndex` return the empty result
list; the function's return type carries no error at all, so the failure is
not propagated as an explicit error result — refuting the claim. -/
theorem searchIndex_returns_empty_on_failure :
    Background.searchIndex Background.SearchFetchOutcome.fetchFailed = [] ∧
    Background.searchIndex (Background.SearchFetchOutcome.httpNotOk 500) = [] :=
  ⟨rfl, rfl⟩

/-- C4 amended: the embedding wrapper `getEmbedding` does rethrow upstream
failures to its caller, but the search operation `searchIndex` catches every
upstream failure (rejected fetch, non-OK HTTP status, false success flag)
and returns the empty result list in its place; the failure is only logged,
so the caller cannot distinguish an upstream error from zero matches. -/
theorem upstream_failure_swallowed_into_empty_result :
    Nomic.getEmbedding Nomic.EmbedFetchOutcome.fetchFailed =
      Except.error Nomic.EmbedError.fetchError ∧
    (∀ s, Nomic.getEmbedding (Nomic.EmbedFetchOutcome.httpNotOk s) =
      Except.error (Nomic.EmbedError.httpError s)) ∧
    Background.searchIndex Background.SearchFetchOutcome.fetchFailed = [] ∧
    (∀ s, Background.searchIndex (Background.SearchFetchOutcome.httpNotOk s)
      = []) ∧
    (∀ res err, Background.searchIndex
      (Background.SearchFetchOutcome.responded false res err) = []) :=
  ⟨rfl, fun _ => rfl, rfl, fun _ => rfl, fun _ _ => rfl⟩

/-- C6 counterexample: `createIndex` applied to the non-positive dimensions
-1 and 0 does not fail — its return type has no error outcome — and the
index created with dimension 0 is usable: `addWithIds` stores a vector and
`search` retrieves its id. -/
theorem createIndex_accepts_nonpositive_dimension :
    Faiss.createIndex (-1) =
      { dimensions := some (-1), vectors := [], nextId := some 0,
        ntotal := 0 } ∧
    (Faiss.addWithIds (Faiss.createIndex 0) [[1, 0]] [0]).1.vectors =
      [(0, [1, 0])] ∧
    Faiss.search (Faiss.addWithIds (Faiss.createIndex 0) [[1, 0]] [0]).1
      [1, 0] 1 = [0] := by
  refine ⟨rfl, rfl, ?_⟩
  decide

/-- C6 amended: `createIndex(d)` succeeds for every dimension `d`, including
every `d ≤ 0`: it performs no validation, records the dimension as given and
returns an empty index on which `search` works (returning the empty list). -/
theorem createIndex_never_fails (d : ℚ) :
    Faiss.createIndex d =
      { dimensions := some d, vectors := [], nextId := some 0, ntotal := 0 } ∧
    ∀ q k, Faiss.search (Faiss.createIndex d) q k = [] := by
  refine ⟨rfl, fun q k => ?_⟩
  simp [Faiss.search, Faiss.sortByDesc, Faiss.createIndex]

/-- C7 counterexample: a well-formed blob whose dimension field is missing is
accepted by `deserializeIndex`, which returns an index (with an undefined
dimension) instead of failing — refuting the claim. -/
theorem deserializeIndex_missing_dimension_succeeds :
    Faiss.deserializeIndex (Faiss.Blob.parsed none (some []) (some 0)) =
      Except.ok { dimensions := none, vectors := [],
                  nextId := some 0, ntotal := 0 } :=
  rfl

/-- C7 amended: `deserializeIndex` fails with a structured error if the blob
is a malformed string (the JSON parse throws) or if the vectors field is
missing (reading its keys throws); a missing dimension field is accepted and
yields an index with no dimension recorded; and on every blob produced by
`serialize` it succeeds and restores dimension, vectors and next-id. -/
theorem deserializeIndex_failure_modes :
    (∀ raw, Faiss.deserializeIndex (Faiss.Blob.malformed raw) =
      Except.error Faiss.DeserializeError.syntaxError) ∧
    (∀ d n, Faiss.deserializeIndex (Faiss.Blob.parsed d none n) =
      Except.error Faiss.DeserializeError.typeError) ∧
    (∀ st, Faiss.deserializeIndex (Faiss.serialize st) =
      Except.ok { st with ntotal := st.vectors.length }) :=
  ⟨fun _ => rfl, fun _ _ => rfl, fun _ => rfl⟩

/-- C9: `cosineSimilarity` on equal-length vectors is total and never divides
by zero: when either vector has zero norm it returns 0 (before any division);
in the remaining case the divisor is strictly positive; and for the all-zero
query vector of any length the result is 0, so search scores are never
undefined. -/
theorem cosineSimilarity_zero_norm_safe (a b : List ℚ)
    (_hlen : a.length = b.length) :
    (Faiss.normSq a = 0 ∨ Faiss.normSq b = 0 →
      Faiss.cosineSimilarity a b = 0) ∧
    (Faiss.normSq a ≠ 0 → Faiss.normSq b ≠ 0 →
      0 < Real.sqrt (Faiss.normSq a : ℚ) * Real.sqrt (Faiss.normSq b : ℚ)) ∧
    (∀ n, Faiss.cosineSimilarity (List.replicate n 0) b = 0) := by
  refine ⟨?_, ?_, ?_⟩
  · intro h
    unfold Faiss.cosineSimilarity
    rw [if_pos h]
  · intro h1 h2
    exact mul_pos (sqrt_normSq_pos h1) (sqrt_normSq_pos h2)
  · intro n
    have hz : Faiss.normSq (List.replicate n 0) = 0 := by
      unfold Faiss.normSq
      simp
    unfold Faiss.cosineSimilarity
    rw [if_pos (Or.inl hz)]

/-- C9 witness: the zero vector against a nonzero vector gives similarity 0. -/
theorem cosineSimilarity_zero_norm_safe_witness :
    Faiss.cosineSimilarity [0, 0] [1, 2] = 0 :=
  (cosineSimilarity_zero_norm_safe [0, 0] [1, 2] (by decide)).1
    (Or.inl (by norm_num [Faiss.normSq]))

/-- C8: the Others category can never be removed — the spec-modelled backend
removal rejects it leaving the registry unchanged, the popup re-adds Others
to every loaded category list when absent (and keeps it when the load
fails), Others is in the initial category list, and the remove control
rendered for Others is disabled. -/
theorem others_category_protected :
    (∀ reg, Registry.removeCategoryBackend reg Popup.othersCat =
      Registry.RemoveResult.rejected reg) ∧
    (∀ fetched current, Popup.othersCat ∈ current →
      Popup.othersCat ∈ Popup.loadAvailableCategories fetched current) ∧
    Popup.othersCat ∈ Popup.defaultCategories ∧
    Popup.removeButtonDisabledFor Popup.othersCat = true := by
  refine ⟨fun reg => ?_, fun fetched current h => ?_, ?_, ?_⟩
  · unfold Registry.removeCategoryBackend
    rw [if_pos (by simp)]
  · cases fetched with
    | none => exact h
    | some cats =>
      show Popup.othersCat ∈
        (if cats.contains Popup.othersCat then cats
         else cats ++ [Popup.othersCat])
      by_cases hc : cats.contains Popup.othersCat
      · rw [if_pos hc]
        exact List.mem_of_elem_eq_true hc
      · rw [if_neg hc]
        exact List.mem_append_right cats (List.mem_singleton.mpr rfl)
  · decide
  · decide

/-- C8 witness: when the category fetch fails, the default list is kept and
still contains Others. -/
theorem others_category_protected_witness :
    Popup.othersCat ∈ Popup.loadAvailableCategories none
      Popup.defaultCategories :=
  others_category_protected.2.1 none Popup.defaultCategories (by decide)

/-- C3: on an index whose stored entries enumerate in ascending id order (the
integer-key enumeration of the vectors object), the scored list that `search`
sorts and truncates is ordered by strictly descending cosine similarity with
ties broken by lower id first; `search` returns exactly the ids of that
list in that order; and the result is deterministic — any index state with
the same stored vectors yields the identical id sequence. -/
theorem search_descending_with_deterministic_ties (st : Faiss.FaissState)
    (q : List ℚ) (k : Nat)
    (hids : st.vectors.Pairwise (fun p r => p.1 < r.1))
    (_hdim : ∀ p ∈ st.vectors, p.2.length = q.length) :
    ((Faiss.sortByDesc (fun p r => Faiss.simLE q p.2 r.2) st.vectors).take
        k).Pairwise (fun p r =>
      Faiss.cosineSimilarity q r.2 < Faiss.cosineSimilarity q p.2 ∨
      (Faiss.cosineSimilarity q p.2 = Faiss.cosineSimilarity q r.2 ∧
        p.1 < r.1)) ∧
    Faiss.search st q k =
      ((Faiss.sortByDesc (fun p r => Faiss.simLE q p.2 r.2)
        st.vectors).take k).map (fun p => p.1) ∧
    (∀ st2 : Faiss.FaissState, st2.vectors = st.vectors →
      Faiss.search st2 q k = Faiss.search st q k) := by
  refine ⟨?_, rfl, ?_⟩
  · have hp := sortByDesc_pairwise (fun p r => Faiss.simLE q p.2 r.2)
      (fun p => Faiss.cosineSimilarity q p.2)
      (fun a b => simLE_iff q a.2 b.2)
      (fun p r => p.1 < r.1) st.vectors hids
    exact hp.sublist (List.take_sublist k _)
  · intro st2 h
    unfold Faiss.search
    rw [h]

/-- C3 witness: on a three-vector index the search output is the id sequence
of the stably sorted, truncated score list. -/
theorem search_descending_with_deterministic_ties_witness :
    Faiss.search
      { dimensions := some 2, vectors := [(0, [1, 0]), (1, [0, 1]),
        (2, [1, 1])], nextId := some 3, ntotal := 3 } [1, 0] 3 =
      ((Faiss.sortByDesc (fun p r => Faiss.simLE [1, 0] p.2 r.2)
        [(0, [1, 0]), (1, [0, 1]), (2, [1, 1])]).take 3).map
        (fun p => p.1) :=
  (search_descending_with_deterministic_ties
    { dimensions := some 2, vectors := [(0, [1, 0]), (1, [0, 1]),
      (2, [1, 1])], nextId := some 3, ntotal := 3 } [1, 0] 3
    (by decide) (by decide)).2.1

lemma jsSubstring_length (l : JSString) (a b : ℤ) :
    ((Background.jsSubstring l a b).length : ℤ) =
      max (min (max a 0) (l.length : ℤ)) (min (max b 0) (l.length : ℤ)) -
      min (min (max a 0) (l.length : ℤ)) (min (max b 0) (l.length : ℤ)) := by
  unfold Background.jsSubstring
  rw [List.length_drop, List.length_take]
  omega

lemma chunkStep_eq (text : JSString) (cs os : ℤ) (chunks : List JSString)
    (i : ℤ) :
    Background.chunkStep text cs os { chunks := chunks, i := i } =
      (if i < (text.length : ℤ) then
        (if (Background.jsSubstring text i (i + cs)).length < 50 then
          Background.ChunkStepResult.done chunks
        else Background.ChunkStepResult.next
          { chunks := chunks ++ [Background.jsSubstring text i (i + cs)],
            i := i + (cs - os) })
      else Background.ChunkStepResult.done chunks) :=
  rfl

lemma chunkRun_terminates (text : JSString) (cs os : ℤ) (hcs : 50 ≤ cs)
    (hstep : os < cs) :
    ∀ fuel (chunks : List JSString) (i : ℤ),
      ((text.length : ℤ) - i).toNat < fuel → 0 ≤ i →
      (∀ c ∈ chunks, 50 ≤ c.length ∧ (c.length : ℤ) ≤ cs) →
      ∃ r, Background.chunkRun text cs os fuel { chunks := chunks, i := i } =
          some r ∧
        ∀ c ∈ r, 50 ≤ c.length ∧ (c.length : ℤ) ≤ cs := by
  intro fuel
  induction fuel with
  | zero =>
    intro chunks i hf _ _
    exact absurd hf (by omega)
  | succ f ih =>
    intro chunks i hf hi hch
    rw [Background.chunkRun, chunkStep_eq]
    by_cases hlt : i < (text.length : ℤ)
    · rw [if_pos hlt]
      by_cases hsm : (Background.jsSubstring text i (i + cs)).length < 50
      · rw [if_pos hsm]
        exact ⟨chunks, rfl, hch⟩
      · rw [if_neg hsm]
        refine ih _ _ (by omega) (by omega) ?_
        intro c hc
        rcases List.mem_append.mp hc with hc1 | hc2
        · exact hch c hc1
        · rw [List.mem_singleton.mp hc2]
          refine ⟨not_lt.mp hsm, ?_⟩
          have hlen := jsSubstring_length text i (i + cs)
          omega
    · rw [if_neg hlt]
      exact ⟨chunks, rfl, hch⟩

lemma createTextChunks_small_chunkSize (text : JSString) (cs os : ℤ)
    (hcs : cs < 50) :
    Background.createTextChunks text cs os (text.length + 1) = some [] := by
  unfold Background.createTextChunks
  rw [Background.chunkRun, chunkStep_eq]
  by_cases h0 : (0 : ℤ) < (text.length : ℤ)
  · rw [if_pos h0]
    have hlen := jsSubstring_length text 0 (0 + cs)
    rw [if_pos (by omega)]
  · rw [if_neg h0]

lemma chunkRun_diverges_on_equal_overlap :
    ∀ fuel (chunks : List JSString),
      Background.chunkRun (List.replicate 50 'a') 50 50 fuel
        { chunks := chunks, i := 0 } = none := by
  intro fuel
  induction fuel with
  | zero =>
    intro chunks
    rfl
  | succ f ih =>
    intro chunks
    rw [Background.chunkRun, chunkStep_eq]
    have hsub : Background.jsSubstring (List.replicate 50 'a') 0 (0 + 50) =
        List.replicate 50 'a' := by decide
    rw [hsub, if_pos (by decide), if_neg (by decide)]
    have h0 : (0 : ℤ) + (50 - 50) = 0 := by decide
    rw [h0]
    exact ih (chunks ++ [List.replicate 50 'a'])

/-- C10: with `overlapSize < chunkSize` the `createTextChunks` loop always
terminates — fuel `text.length + 1` suffices — and every returned chunk has
at least 50 characters and at most `chunkSize` characters; with
`overlapSize = chunkSize` (both 50) on a 50-character text the position
never advances and the loop never terminates: no amount of fuel makes it
return. -/
theorem createTextChunks_terminates_and_diverges :
    (∀ (text : JSString) (cs os : ℤ), os < cs →
      ∃ r, Background.createTextChunks text cs os (text.length + 1) =
          some r ∧
        ∀ c ∈ r, 50 ≤ c.length ∧ (c.length : ℤ) ≤ cs) ∧
    (∀ fuel, Background.createTextChunks (List.replicate 50 'a') 50 50 fuel =
      none) := by
  constructor
  · intro text cs os h
    by_cases hcs : 50 ≤ cs
    · exact chunkRun_terminates text cs os hcs h (text.length + 1) [] 0
        (by omega) le_rfl (by simp)
    · exact ⟨[], createTextChunks_small_chunkSize text cs os (not_le.mp hcs),
        by simp⟩
  · intro fuel
    exact chunkRun_diverges_on_equal_overlap fuel []

/-- C10 witness: chunking a 120-character text with chunk size 60 and overlap
0 terminates with chunks of 50 to 60 characters. -/
theorem createTextChunks_terminates_witness :
    ∃ r, Background.createTextChunks (List.replicate 120 'b') 60 0
        ((List.replicate 120 'b').length + 1) = some r ∧
      ∀ c ∈ r, 50 ≤ c.length ∧ (c.length : ℤ) ≤ 60 :=
  createTextChunks_terminates_and_diverges.1 (List.replicate 120 'b') 60 0
    (by decide)

/-- C1: a url that matches a pattern of the confidential-site list (some
pattern occurs as a substring of its hostname or of its pathname), or that
fails to parse as a URL, is reported confidential by `isConfidentialSite`;
`processPageContent` then returns before issuing the indexing request —
its result is the early-return value whatever the backend would have
answered — and `indexPage` returns before fetching or processing page
content: its result is independent of the page-content and indexing-request
outcomes and is never the completed or the content-error return that lie
beyond the content fetch.  Hence no Document or Vector Index entry is
created for such a url. -/
theorem confidential_url_never_indexed (patterns : List JSString)
    (url : Background.JSURL)
    (hconf : url.parsed = none ∨ ∃ u, url.parsed = some u ∧ ∃ p ∈ patterns,
      (∃ pre post, u.hostname = pre ++ p ++ post) ∨
      (∃ pre post, u.pathname = pre ++ p ++ post)) :
    (Background.isConfidentialSite patterns url).isConfidential = true ∧
    (∀ backend, Background.processPageContent patterns url backend =
      Background.ProcessResult.skippedConfidential) ∧
    (∀ inProgress check page1 backend1 page2 backend2,
      Background.indexPage patterns url inProgress check page1 backend1 =
      Background.indexPage patterns url inProgress check page2 backend2) ∧
    (∀ inProgress check page backend,
      (∀ r, Background.indexPage patterns url inProgress check page backend ≠
        Background.IndexPageResult.completed r) ∧
      Background.indexPage patterns url inProgress check page backend ≠
        Background.IndexPageResult.contentError) := by
  have hc : (Background.isConfidentialSite patterns url).isConfidential =
      true := by
    rcases hconf with hnone | ⟨u, hu, p, hp, hsub⟩
    · unfold Background.isConfidentialSite
      rw [hnone]
    · have hpred : (jsIncludes u.hostname p || jsIncludes u.pathname p)
          = true := by
        rcases hsub with ⟨pre, post, h⟩ | ⟨pre, post, h⟩
        · have : jsIncludes u.hostname p = true :=
            (jsIncludes_iff u.hostname p).mpr ⟨pre, post, h⟩
          simp [this]
        · have : jsIncludes u.pathname p = true :=
            (jsIncludes_iff u.pathname p).mpr ⟨pre, post, h⟩
          simp [this]
      obtain ⟨b, hb⟩ := @find?_isSome_of_mem _
        (fun site => jsIncludes u.hostname site || jsIncludes u.pathname site)
        patterns p hp hpred
      simp [Background.isConfidentialSite, hu, hb]
  have hkey : ∀ inProgress check page backend,
      Background.indexPage patterns url inProgress check page backend =
        if url.raw.isEmpty then Background.IndexPageResult.invalidTab
        else if inProgress then Background.IndexPageResult.alreadyInProgress
        else
          match check with
          | Background.CheckIndexedOutcome.fetchFailed =>
            Background.IndexPageResult.checkFailed
          | Background.CheckIndexedOutcome.httpNotOk _ =>
            Background.IndexPageResult.checkFailed
          | Background.CheckIndexedOutcome.responded success isIndexed =>
            if success && isIndexed then
              Background.IndexPageResult.skippedAlreadyIndexed
            else
              Background.IndexPageResult.skippedConfidential
                (Background.isConfidentialSite patterns url).matchedPattern
      := by
    intro inProgress check page backend
    unfold Background.indexPage
    by_cases h1 : url.raw.isEmpty
    · rw [if_pos h1, if_pos h1]
    · rw [if_neg h1, if_neg h1]
      by_cases h2 : inProgress
      · rw [if_pos h2, if_pos h2]
      · rw [if_neg h2, if_neg h2]
        cases check with
        | fetchFailed => rfl
        | httpNotOk s => rfl
        | responded success isIndexed =>
          by_cases h3 : success && isIndexed
          · simp [h3]
          · simp [h3, hc]
  refine ⟨hc, ?_, ?_, ?_⟩
  · intro backend
    unfold Background.processPageContent
    rw [if_pos hc]
  · intro inProgress check page1 backend1 page2 backend2
    rw [hkey inProgress check page1 backend1, hkey inProgress check page2
      backend2]
  · intro inProgress check page backend
    rw [hkey inProgress check page backend]
    constructor
    · intro r
      by_cases h1 : url.raw.isEmpty
      · simp [h1]
      · by_cases h2 : inProgress
        · simp [h1, h2]
        · cases check with
          | fetchFailed => simp [h1, h2]
          | httpNotOk s => simp [h1, h2]
          | responded success isIndexed =>
            by_cases h3 : success && isIndexed <;> simp [h1, h2, h3]
    · by_cases h1 : url.raw.isEmpty
      · simp [h1]
      · by_cases h2 : inProgress
        · simp [h1, h2]
        · cases check with
          | fetchFailed => simp [h1, h2]
          | httpNotOk s => simp [h1, h2]
          | responded success isIndexed =>
            by_cases h3 : success && isIndexed <;> simp [h1, h2, h3]

/-- C1 witness: a url whose hostname contains the pattern 'bank' is skipped
by `processPageContent` even when the backend would have answered success. -/
theorem confidential_url_never_indexed_witness :
    Background.processPageContent ["bank".toList]
      { raw := "https://mybank.com/x".toList,
        parsed := some { hostname := "mybank.com".toList,
                         pathname := "/x".toList } }
      (Background.IndexBackendOutcome.responded true none) =
      Background.ProcessResult.skippedConfidential :=
  (confidential_url_never_indexed ["bank".toList]
    { raw := "https://mybank.com/x".toList,
      parsed := some { hostname := "mybank.com".toList,
                       pathname := "/x".toList } }
    (Or.inr ⟨{ hostname := "mybank.com".toList, pathname := "/x".toList },
      rfl, "bank".toList, by decide,
      Or.inl ⟨"my".toList, ".com".toList, by decide⟩⟩)).2.1
    (Background.IndexBackendOutcome.responded true none)

lemma dedupStep_eq_none {acc : List SearchResult} {cur : SearchResult}
    (h : acc.find? (fun item => item.url == cur.url) = none) :
    Popup.dedupStep acc cur = acc ++ [cur] := by
  unfold Popup.dedupStep
  rw [h]

lemma dedupStep_eq_some {acc : List SearchResult} {cur existing : SearchResult}
    (h : acc.find? (fun item => item.url == cur.url) = some existing) :
    Popup.dedupStep acc cur =
      if existing.score < cur.score then Popup.replaceFirstUrl cur acc
      else acc := by
  unfold Popup.dedupStep
  rw [h]

lemma replaceFirstUrl_map_url (cur : SearchResult) (l : List SearchResult) :
    (Popup.replaceFirstUrl cur l).map (fun r => r.url) =
      l.map (fun r => r.url) := by
  induction l with
  | nil => rfl
  | cons x xs ih =>
    unfold Popup.replaceFirstUrl
    by_cases h : x.url == cur.url
    · rw [if_pos h]
      have hx : x.url = cur.url := beq_iff_eq.mp h
      simp [hx, ih]
    · rw [if_neg h]
      simp [ih]

lemma mem_replaceFirstUrl_nodup {cur e : SearchResult}
    {l : List SearchResult} (hnd : (l.map (fun r => r.url)).Nodup)
    (h : e ∈ Popup.replaceFirstUrl cur l) :
    e = cur ∨ (e ∈ l ∧ e.url ≠ cur.url) := by
  induction l with
  | nil => cases h
  | cons x xs ih =>
    rw [List.map_cons, List.nodup_cons] at hnd
    obtain ⟨hx_notin, hnd2⟩ := hnd
    unfold Popup.replaceFirstUrl at h
    by_cases hx : x.url == cur.url
    · rw [if_pos hx] at h
      have hxeq : x.url = cur.url := beq_iff_eq.mp hx
      rcases List.mem_cons.mp h with rfl | h2
      · exact Or.inl rfl
      · refine Or.inr ⟨List.mem_cons_of_mem x h2, ?_⟩
        intro hcontra
        apply hx_notin
        have hxe : x.url = e.url := hxeq.trans hcontra.symm
        rw [hxe]
        exact List.mem_map_of_mem _ h2
    · rw [if_neg hx] at h
      have hxne : x.url ≠ cur.url := fun hcontra => hx (beq_iff_eq.mpr hcontra)
      rcases List.mem_cons.mp h with rfl | h2
      · exact Or.inr ⟨List.mem_cons_self e xs, hxne⟩
      · rcases ih hnd2 h2 with h3 | ⟨h4, h5⟩
        · exact Or.inl h3
        · exact Or.inr ⟨List.mem_cons_of_mem x h4, h5⟩

lemma replaceFirstUrl_self_mem {cur : SearchResult} {l : List SearchResult}
    (h : ∃ x ∈ l, x.url = cur.url) : cur ∈ Popup.replaceFirstUrl cur l := by
  induction l with
  | nil =>
    obtain ⟨x, hx, _⟩ := h
    cases hx
  | cons x xs ih =>
    unfold Popup.replaceFirstUrl
    by_cases hx : x.url == cur.url
    · rw [if_pos hx]
      exact List.mem_cons_self cur xs
    · rw [if_neg hx]
      obtain ⟨y, hy, hyeq⟩ := h
      rcases List.mem_cons.mp hy with rfl | h2
      · exact absurd (beq_iff_eq.mpr hyeq) hx
      · exact List.mem_cons_of_mem x (ih ⟨y, h2, hyeq⟩)

lemma mem_replaceFirstUrl_of_ne {cur e : SearchResult}
    {l : List SearchResult} (he : e ∈ l) (hne : e.url ≠ cur.url) :
    e ∈ Popup.replaceFirstUrl cur l := by
  induction l with
  | nil => cases he
  | cons x xs ih =>
    unfold Popup.replaceFirstUrl
    by_cases hx : x.url == cur.url
    · rw [if_pos hx]
      rcases List.mem_cons.mp he with rfl | h2
      · exact absurd (beq_iff_eq.mp hx) hne
      · exact List.mem_cons_of_mem cur h2
    · rw [if_neg hx]
      rcases List.mem_cons.mp he with rfl | h2
      · exact List.mem_cons_self e (Popup.replaceFirstUrl cur xs)
      · exact List.mem_cons_of_mem x (ih h2)

lemma eq_of_mem_nodup_url {l : List SearchResult} {e f : SearchResult}
    (hnd : (l.map (fun r => r.url)).Nodup) (he : e ∈ l) (hf : f ∈ l)
    (h : e.url = f.url) : e = f := by
  induction l with
  | nil => cases he
  | cons x xs ih =>
    rw [List.map_cons, List.nodup_cons] at hnd
    obtain ⟨hx_notin, hnd2⟩ := hnd
    rcases List.mem_cons.mp he with rfl | he2
    · rcases List.mem_cons.mp hf with rfl | hf2
      · rfl
      · have : e.url ∈ xs.map (fun r => r.url) := by
          rw [h]
          exact List.mem_map_of_mem _ hf2
        exact absurd this hx_notin
    · rcases List.mem_cons.mp hf with rfl | hf2
      · have : f.url ∈ xs.map (fun r => r.url) := by
          rw [← h]
          exact List.mem_map_of_mem _ he2
        exact absurd this hx_notin
      · exact ih hnd2 he2 hf2

lemma dedupStep_invariant {processed acc : List SearchResult}
    {cur : SearchResult}
    (h1 : (acc.map (fun r => r.url)).Nodup)
    (h2 : ∀ e ∈ acc, e ∈ processed ∧
      ∀ r ∈ processed, r.url = e.url → r.score ≤ e.score)
    (h3 : ∀ r ∈ processed, ∃ e ∈ acc, e.url = r.url) :
    ((Popup.dedupStep acc cur).map (fun r => r.url)).Nodup ∧
    (∀ e ∈ Popup.dedupStep acc cur, e ∈ processed ++ [cur] ∧
      ∀ r ∈ processed ++ [cur], r.url = e.url → r.score ≤ e.score) ∧
    (∀ r ∈ processed ++ [cur],
      ∃ e ∈ Popup.dedupStep acc cur, e.url = r.url) := by
  cases hfind : acc.find? (fun item => item.url == cur.url) with
  | none =>
    rw [dedupStep_eq_none hfind]
    have hnone := List.find?_eq_none.mp hfind
    have hnourl : ∀ x ∈ acc, x.url ≠ cur.url :=
      fun x hx hc => hnone x hx (beq_iff_eq.mpr hc)
    refine ⟨?_, ?_, ?_⟩
    · rw [List.map_append]
      refine List.Nodup.append h1 (List.nodup_singleton _) ?_
      intro a ha hb
      obtain ⟨x, hx, rfl⟩ := List.mem_map.mp ha
      exact hnourl x hx (List.mem_singleton.mp hb)
    · intro e he
      rcases List.mem_append.mp he with he1 | he2
      · obtain ⟨hmem, hbnd⟩ := h2 e he1
        refine ⟨List.mem_append_left _ hmem, ?_⟩
        intro r hr hurl
        rcases List.mem_append.mp hr with hr1 | hr2
        · exact hbnd r hr1 hurl
        · rw [List.mem_singleton.mp hr2] at hurl
          exact absurd hurl.symm (hnourl e he1)
      · rw [List.mem_singleton.mp he2]
        refine ⟨List.mem_append_right _ (List.mem_singleton_self _), ?_⟩
        intro r hr hurl
        rcases List.mem_append.mp hr with hr1 | hr2
        · obtain ⟨e2, he2m, he2url⟩ := h3 r hr1
          exact absurd (he2url.trans hurl) (hnourl e2 he2m)
        · rw [List.mem_singleton.mp hr2]
    · intro r hr
      rcases List.mem_append.mp hr with hr1 | hr2
      · obtain ⟨e, hem, heq⟩ := h3 r hr1
        exact ⟨e, List.mem_append_left _ hem, heq⟩
      · rw [List.mem_singleton.mp hr2]
        exact ⟨cur, List.mem_append_right _ (List.mem_singleton_self _), rfl⟩
  | some existing =>
    rw [dedupStep_eq_some hfind]
    have hex_mem : existing ∈ acc := List.mem_of_find?_eq_some hfind
    have hexbeq := List.find?_some hfind
    have hex_url : existing.url = cur.url := by
      simpa using hexbeq
    by_cases hscore : existing.score < cur.score
    · rw [if_pos hscore]
      obtain ⟨hex_in_proc, hex_bound⟩ := h2 existing hex_mem
      refine ⟨?_, ?_, ?_⟩
      · rw [replaceFirstUrl_map_url]
        exact h1
      · intro e he
        rcases mem_replaceFirstUrl_nodup h1 he with rfl | ⟨hmem, hne⟩
        · refine ⟨List.mem_append_right _ (List.mem_singleton_self _), ?_⟩
          intro r hr hurl
          rcases List.mem_append.mp hr with hr1 | hr2
          · have hre : r.score ≤ existing.score :=
              hex_bound r hr1 (hurl.trans hex_url.symm)
            exact hre.trans hscore.le
          · rw [List.mem_singleton.mp hr2]
        · obtain ⟨hmemp, hbnd⟩ := h2 e hmem
          refine ⟨List.mem_append_left _ hmemp, ?_⟩
          intro r hr hurl
          rcases List.mem_append.mp hr with hr1 | hr2
          · exact hbnd r hr1 hurl
          · rw [List.mem_singleton.mp hr2] at hurl
            exact absurd hurl.symm hne
      · intro r hr
        rcases List.mem_append.mp hr with hr1 | hr2
        · obtain ⟨e, hem, heq⟩ := h3 r hr1
          by_cases hcase : e.url = cur.url
          · exact ⟨cur,
              replaceFirstUrl_self_mem ⟨existing, hex_mem, hex_url⟩,
              hcase.symm.trans heq⟩
          · exact ⟨e, mem_replaceFirstUrl_of_ne hem hcase, heq⟩
        · rw [List.mem_singleton.mp hr2]
          exact ⟨cur,
            replaceFirstUrl_self_mem ⟨existing, hex_mem, hex_url⟩, rfl⟩
    · rw [if_neg hscore]
      refine ⟨h1, ?_, ?_⟩
      · intro e he
        obtain ⟨hmemp, hbnd⟩ := h2 e he
        refine ⟨List.mem_append_left _ hmemp, ?_⟩
        intro r hr hurl
        rcases List.mem_append.mp hr with hr1 | hr2
        · exact hbnd r hr1 hurl
        · rw [List.mem_singleton.mp hr2] at hurl ⊢
          have hee : e = existing :=
            eq_of_mem_nodup_url h1 he hex_mem
              (hurl.symm.trans hex_url.symm)
          rw [hee]
          exact not_lt.mp hscore
      · intro r hr
        rcases List.mem_append.mp hr with hr1 | hr2
        · exact h3 r hr1
        · rw [List.mem_singleton.mp hr2]
          exact ⟨existing, hex_mem, hex_url⟩

lemma dedup_fold_invariant :
    ∀ (l processed acc : List SearchResult),
      (acc.map (fun r => r.url)).Nodup →
      (∀ e ∈ acc, e ∈ processed ∧
        ∀ r ∈ processed, r.url = e.url → r.score ≤ e.score) →
      (∀ r ∈ processed, ∃ e ∈ acc, e.url = r.url) →
      ((l.foldl Popup.dedupStep acc).map (fun r => r.url)).Nodup ∧
      (∀ e ∈ l.foldl Popup.dedupStep acc, e ∈ processed ++ l ∧
        ∀ r ∈ processed ++ l, r.url = e.url → r.score ≤ e.score) ∧
      (∀ r ∈ processed ++ l,
        ∃ e ∈ l.foldl Popup.dedupStep acc, e.url = r.url) := by
  intro l
  induction l with
  | nil =>
    intro processed acc h1 h2 h3
    simpa using ⟨h1, h2, h3⟩
  | cons cur rest ih =>
    intro processed acc h1 h2 h3
    obtain ⟨g1, g2, g3⟩ := dedupStep_invariant h1 h2 h3
    have hres := ih (processed ++ [cur]) (Popup.dedupStep acc cur) g1 g2 g3
    simpa [List.foldl_cons, List.append_assoc] using hres

/-- C5: the `performSearch` deduplication-and-sort pass produces a list in
which each url appears at most once while every input url is still
represented, the entry kept for a url is an input occurrence whose score is
greatest among all occurrences of that url, and the output is sorted by
score in descending order. -/
theorem performSearch_dedup_best_sorted (results : List SearchResult) :
    ((Popup.performSearchResults results).map (fun r => r.url)).Nodup ∧
    (∀ r ∈ results,
      ∃ e ∈ Popup.performSearchResults results, e.url = r.url) ∧
    (∀ e ∈ Popup.performSearchResults results, e ∈ results ∧
      ∀ r ∈ results, r.url = e.url → r.score ≤ e.score) ∧
    (Popup.performSearchResults results).Pairwise
      (fun a b => b.score ≤ a.score) := by
  have hinv := dedup_fold_invariant results [] [] (by simp) (by simp)
    (by simp)
  rw [List.nil_append] at hinv
  obtain ⟨h1, h2, h3⟩ := hinv
  have hperm := sortByDesc_perm
    (fun a b : SearchResult => decide (a.score ≤ b.score))
    (Popup.dedupByUrl results)
  unfold Popup.performSearchResults
  refine ⟨?_, ?_, ?_, ?_⟩
  · exact ((hperm.map (fun r => r.url)).nodup_iff).mpr h1
  · intro r hr
    obtain ⟨e, he, heq⟩ := h3 r hr
    exact ⟨e, hperm.mem_iff.mpr he, heq⟩
  · intro e he
    exact h2 e (hperm.mem_iff.mp he)
  · have hp := sortByDesc_pairwise
      (fun a b : SearchResult => decide (a.score ≤ b.score))
      (fun r => r.score) (fun a b => by simp) (fun _ _ => True)
      (Popup.dedupByUrl results) (pairwise_trivial _)
    refine hp.imp ?_
    intro a b hab
    rcases hab with hlt | ⟨heq, _⟩
    · exact hlt.le
    · exact le_of_eq heq.symm

/-- C5 witness: two occurrences of the same url collapse to one entry. -/
theorem performSearch_dedup_best_sorted_witness :
    ∃ e ∈ Popup.performSearchResults
        [{ url := "a".toList, title := none, content := [], score := 1 },
         { url := "a".toList, title := none, content := [], score := 2 }],
      e.url = "a".toList :=
  (performSearch_dedup_best_sorted
    [{ url := "a".toList, title := none, content := [], score := 1 },
     { url := "a".toList, title := none, content := [], score := 2 }]).2.1
    { url := "a".toList, title := none, content := [], score := 1 }
    (by decide)
